import Mathlib

/-!
Verification of the Bloom filter implemented in BloomFilterHW.py.

The Python class BloomFilter is shallowly embedded as follows.

The bit-array collaborator (the BitVector library) is modelled as a
List Bool of length numBits, with false standing for a 0 bit and true
for a 1 bit.  A read of position i is modelled as List.getD at i with
default false, a write of a 1 bit as List.set i true; every index that
the program actually reads or writes is reduced modulo numBits, hence
in range whenever 1 <= numBits (with numBits = 0 the Python program
raises ZeroDivisionError on hash % numBits before touching the array,
so no claim engages that state).

The hash collaborator (the BitHash function, imported by the source
and not part of this repository) is modelled as an arbitrary function
bitHash : Nat -> Nat -> Nat of a key and a seed; theorems quantify over
it, and witnesses instantiate it with a concrete function (demoHash).
Keys are modelled as natural numbers, which is faithful because the
program only ever passes a key to bitHash.

Python floats are modelled as real numbers: the constructor arithmetic
(the ** operator with a real exponent) becomes Real.rpow, the **
operator with an integer exponent becomes Monoid.npow, the int(...)
truncation becomes pyInt (truncation toward zero).  The division by
bitCount performed by falsePositiveRate raises ZeroDivisionError in
Python when bitCount = 0; this fallible read is modelled with Option,
none standing for the uncaught ZeroDivisionError escaping the method.
-/

namespace BloomFilterHW

/-- State of one Python BloomFilter object: one field per attribute the
constructor sets, in source order, keeping the source names without the
name-mangling underscores. -/
structure BloomFilter where
  numKeys : ℕ
  numHashes : ℕ
  maxFalsePositive : ℝ
  numBits : ℕ
  bitVector : List Bool
  bitCount : ℕ

/-- Loop of the insert method: iterate numHashes times, carrying the
chaining seed a (initialised to 0 by the caller).  Each iteration takes
h = bitHash key a, probes position h % numBits, sets the bit and bumps
the count when the bit was 0, and chains a := h for the next round. -/
def insertAux (bitHash : ℕ → ℕ → ℕ) (numBits key : ℕ) :
    ℕ → ℕ → List Bool → ℕ → List Bool × ℕ
  | 0, _, vec, count => (vec, count)
  | n + 1, a, vec, count =>
    let h := bitHash key a
    let num := h % numBits
    if vec.getD num false = false then
      insertAux bitHash numBits key n h (vec.set num true) (count + 1)
    else
      insertAux bitHash numBits key n h vec count

/-- The insert method: runs the probe loop with seed 0 over the stored
bit vector and bit count, and stores the updated pair back. -/
def BloomFilter.insert (bitHash : ℕ → ℕ → ℕ) (bf : BloomFilter) (key : ℕ) : BloomFilter :=
  let r := insertAux bitHash bf.numBits key bf.numHashes 0 bf.bitVector bf.bitCount
  { bf with bitVector := r.1, bitCount := r.2 }

/-- Loop of the find method: iterate numHashes times with the same
seed chaining as insert (h = bitHash key a, then a := h, then probe
h % numBits), returning false as soon as a probed bit is 0, and true
once all numHashes probes saw a 1. -/
def findAux (bitHash : ℕ → ℕ → ℕ) (numBits key : ℕ) :
    ℕ → ℕ → List Bool → Bool
  | 0, _, _ => true
  | n + 1, a, vec =>
    let h := bitHash key a
    let a2 := h
    let num := h % numBits
    if vec.getD num false = false then false
    else findAux bitHash numBits key n a2 vec

/-- The find method: runs the probe loop with seed 0 over the stored
bit vector. -/
def BloomFilter.find (bitHash : ℕ → ℕ → ℕ) (bf : BloomFilter) (key : ℕ) : Bool :=
  findAux bitHash bf.numBits key bf.numHashes 0 bf.bitVector

/-- The numBitsSet method: returns the cached bitCount directly, with
no scan of the bit vector. -/
def BloomFilter.numBitsSet (bf : BloomFilter) : ℕ :=
  bf.bitCount

/-- The falsePositiveRate method: phi = (1 - numHashes / bitCount) ** numKeys
and the result (1 - phi) ** numHashes, both computed from the cached
fields only.  The division raises ZeroDivisionError in Python when
bitCount = 0, modelled as the result none. -/
noncomputable def BloomFilter.falsePositiveRate (bf : BloomFilter) : Option ℝ :=
  if bf.bitCount = 0 then none
  else
    let phi := (1 - (bf.numHashes : ℝ) / (bf.bitCount : ℝ)) ^ bf.numKeys
    some ((1 - phi) ^ bf.numHashes)

/-- The bitsNeeded helper as a real number, before the int() truncation:
phi = 1 - maxFalsePositive ** (1/numHashes), then
numHashes / (1 - phi ** (1/numKeys)).  The Lean expression is total
while the Python one is not: with numHashes = 0, numKeys = 0 or
maxFalsePositive = 0 the source raises ZeroDivisionError, and with a
negative maxFalsePositive and numKeys > 1 the arithmetic turns complex
and int() raises TypeError.  This model is therefore only relied on
where the Python run completes: every theorem below engages it either
under numKeys >= 1, numHashes >= 1, 0 < maxFalsePositive < 1, or at
the single concrete input (1, 2, 9), on which every float operation of
the source is exact and raises nothing. -/
noncomputable def bitsNeededR (numKeys numHashes : ℕ) (maxFalsePositive : ℝ) : ℝ :=
  let phi := 1 - maxFalsePositive ^ ((1 : ℝ) / (numHashes : ℝ))
  (numHashes : ℝ) / (1 - phi ^ ((1 : ℝ) / (numKeys : ℝ)))

/-- Python int() applied to a float: truncation toward zero. -/
noncomputable def pyInt (x : ℝ) : ℤ :=
  if 0 ≤ x then ⌊x⌋ else ⌈x⌉

/-- The private bitsNeeded method of the source: the real-valued formula
followed by the int() truncation.  The method performs no validation of
its three parameters and has no error path. -/
noncomputable def bitsNeeded (numKeys numHashes : ℕ) (maxFalsePositive : ℝ) : ℤ :=
  pyInt (bitsNeededR numKeys numHashes maxFalsePositive)

/-- State built by the constructor once the bit-array size is known:
the three parameters are stored, the bit vector is created all zeros
with numBits bits, and bitCount starts at 0.  Factored out of init so
that claims about the running filter can quantify over the size. -/
def mkFilter (numKeys numHashes numBits : ℕ) (maxFalsePositive : ℝ) : BloomFilter :=
  { numKeys := numKeys
    numHashes := numHashes
    maxFalsePositive := maxFalsePositive
    numBits := numBits
    bitVector := List.replicate numBits false
    bitCount := 0 }

/-- The constructor of the source: numBits is bitsNeeded applied to the
three parameters (its value is nonnegative in every state a claim
engages, so the Int.toNat adjustment is the identity there), and the
rest of the state is as mkFilter builds it.  The source constructor
contains no validation, no raise statement and no declared error type;
the only ways it can fail are the raw arithmetic faults propagating out
of bitsNeeded listed there, so this model too is only relied on where
the Python run completes (see the comment on bitsNeededR). -/
noncomputable def BloomFilter.init (numKeys numHashes : ℕ) (maxFalsePositive : ℝ) : BloomFilter :=
  mkFilter numKeys numHashes (bitsNeeded numKeys numHashes maxFalsePositive).toNat maxFalsePositive

/-- Sequence of bit positions probed by the insert loop, read off from
its body: h = bitHash key a, position h % numBits, next seed h. -/
def insertProbes (bitHash : ℕ → ℕ → ℕ) (numBits key : ℕ) : ℕ → ℕ → List ℕ
  | 0, _ => []
  | n + 1, a =>
    let h := bitHash key a
    let num := h % numBits
    num :: insertProbes bitHash numBits key n h

/-- Sequence of bit positions probed by the find loop, read off from
its body: h = bitHash key a, then a2 = h (the seed update, which in the
source textually precedes the modulo), position h % numBits, next seed
a2. -/
def findProbes (bitHash : ℕ → ℕ → ℕ) (numBits key : ℕ) : ℕ → ℕ → List ℕ
  | 0, _ => []
  | n + 1, a =>
    let h := bitHash key a
    let a2 := h
    let num := h % numBits
    num :: findProbes bitHash numBits key n a2

/-- Repeated insertion, front to back: the filter after a sequence of
insert calls. -/
def insertList (bitHash : ℕ → ℕ → ℕ) (bf : BloomFilter) : List ℕ → BloomFilter
  | [] => bf
  | k :: ks => insertList bitHash (BloomFilter.insert bitHash bf k) ks

/-- Stateful reading of the find method: its body assigns no attribute
of self (a, hash and num are locals), so the state it returns is the
state it received. -/
def findS (bitHash : ℕ → ℕ → ℕ) (bf : BloomFilter) (key : ℕ) : Bool × BloomFilter :=
  (BloomFilter.find bitHash bf key, bf)

/-- Stateful reading of the numBitsSet method: no attribute assignment
in its body. -/
def numBitsSetS (bf : BloomFilter) : ℕ × BloomFilter :=
  (bf.numBitsSet, bf)

/-- Stateful reading of the falsePositiveRate method: no attribute
assignment in its body. -/
noncomputable def falsePositiveRateS (bf : BloomFilter) : Option ℝ × BloomFilter :=
  (bf.falsePositiveRate, bf)

/-- Bit-array size prescribed by section 4.1 of the spec, written from
the spec sentences: phi = 1 - P^(1/d), N = d / (1 - phi^(1/n)),
truncated with floor. -/
noncomputable def specNumBits (n d : ℕ) (P : ℝ) : ℤ :=
  ⌊(d : ℝ) / (1 - (1 - P ^ ((1 : ℝ) / (d : ℝ))) ^ ((1 : ℝ) / (n : ℝ)))⌋

/-- Projected false-positive rate prescribed by section 4.4 of the
spec, written from the spec sentences: phi = (1 - numHashes / bitsSetCount)
^ numKeys, result (1 - phi) ^ numHashes, a function of the three cached
numbers only. -/
noncomputable def specFalsePositiveRate (numKeys numHashes bitsSetCount : ℕ) : ℝ :=
  let phi := (1 - (numHashes : ℝ) / (bitsSetCount : ℝ)) ^ numKeys
  (1 - phi) ^ numHashes

/-- Concrete deterministic stand-in for the external BitHash collaborator,
used by the witnesses. -/
def demoHash (key seed : ℕ) : ℕ :=
  2 * key + 3 * seed + 1

/-- Reading a position of an all-zero bit array gives 0, whether or not
the position is in range (out of range, the modelled default is also 0). -/
theorem getD_replicate_false : ∀ (n i : ℕ), (List.replicate n false).getD i false = false
  | 0, _ => rfl
  | _ + 1, 0 => rfl
  | n + 1, i + 1 => getD_replicate_false n i

/-- An all-zero bit array has no 1 bits to count. -/
theorem count_replicate_false : ∀ n : ℕ, (List.replicate n false).count true = 0
  | 0 => rfl
  | n + 1 => by
    rw [List.replicate_succ, List.count_cons, count_replicate_false n]
    simp

/-- Setting a bit in range and then reading it back gives the value set. -/
theorem getD_set_self : ∀ (v : List Bool) (i : ℕ), i < v.length → ∀ b : Bool,
    (v.set i b).getD i false = b
  | [], _, hi, _ => absurd hi (Nat.not_lt_zero _)
  | _ :: _, 0, _, _ => rfl
  | _ :: xs, i + 1, hi, b => getD_set_self xs i (Nat.lt_of_succ_lt_succ hi) b

/-- Writing a 1 bit never turns a 1 bit into a 0 bit, at any position. -/
theorem getD_set_true_mono : ∀ (v : List Bool) (j i : ℕ),
    v.getD i false = true → (v.set j true).getD i false = true
  | [], _, _, h => h
  | _ :: _, 0, 0, _ => rfl
  | _ :: _, 0, _ + 1, h => h
  | _ :: _, _ + 1, 0, h => h
  | _ :: xs, j + 1, i + 1, h => getD_set_true_mono xs j i h

/-- Writing a 1 bit over a bit that already reads 1 leaves the array
unchanged. -/
theorem set_true_of_getD_true : ∀ (v : List Bool) (i : ℕ),
    v.getD i false = true → v.set i true = v
  | [], _, _ => rfl
  | x :: xs, 0, h => by
    have hx : x = true := h
    rw [hx]
    rfl
  | _ :: xs, i + 1, h => by
    show _ :: xs.set i true = _
    rw [set_true_of_getD_true xs i h]

/-- Setting an in-range bit that reads 0 to 1 grows the number of 1
bits by exactly one. -/
theorem count_set_true : ∀ (v : List Bool) (i : ℕ), i < v.length →
    v.getD i false = false → (v.set i true).count true = v.count true + 1
  | [], _, hi, _ => absurd hi (Nat.not_lt_zero _)
  | x :: xs, 0, _, h => by
    have hx : x = false := h
    rw [hx]
    simp [List.count_cons]
  | x :: xs, i + 1, hi, h => by
    show (x :: xs.set i true).count true = (x :: xs).count true + 1
    rw [List.count_cons, List.count_cons, count_set_true xs i (Nat.lt_of_succ_lt_succ hi) h]
    omega

/-- The find loop and the insert loop generate the same probe
sequence from any seed: the only textual difference between the two
loop bodies is that find updates the seed before taking the modulo,
which does not change either the position or the next seed. -/
theorem findProbes_eq_insertProbes (bitHash : ℕ → ℕ → ℕ) (numBits key : ℕ) :
    ∀ (d a : ℕ), findProbes bitHash numBits key d a = insertProbes bitHash numBits key d a
  | 0, _ => rfl
  | d + 1, a => by
    simp only [findProbes, insertProbes]
    rw [findProbes_eq_insertProbes bitHash numBits key d (bitHash key a)]

/-- The insert loop makes exactly one probe per iteration. -/
theorem insertProbes_length (bitHash : ℕ → ℕ → ℕ) (numBits key : ℕ) :
    ∀ (d a : ℕ), (insertProbes bitHash numBits key d a).length = d
  | 0, _ => rfl
  | d + 1, a => by
    simp only [insertProbes, List.length_cons]
    rw [insertProbes_length bitHash numBits key d (bitHash key a)]

/-- The find loop returns true exactly when every position of its probe
sequence holds a 1 bit: the early return on the first 0 bit and the
conjunction over the whole sequence agree. -/
theorem findAux_eq_all (bitHash : ℕ → ℕ → ℕ) (numBits key : ℕ) :
    ∀ (d a : ℕ) (vec : List Bool),
      findAux bitHash numBits key d a vec =
        (findProbes bitHash numBits key d a).all (fun i => vec.getD i false)
  | 0, _, _ => rfl
  | d + 1, a, vec => by
    simp only [findAux, findProbes, List.all_cons]
    by_cases hgd : vec.getD (bitHash key a % numBits) false = false
    · rw [if_pos hgd, hgd]
      simp
    · have hgt : vec.getD (bitHash key a % numBits) false = true := by
        cases h2 : vec.getD (bitHash key a % numBits) false
        · exact absurd h2 hgd
        · rfl
      rw [if_neg hgd, hgt]
      simp only [Bool.true_and]
      exact findAux_eq_all bitHash numBits key d (bitHash key a) vec

/-- The bit array coming out of the insert loop is the input array with
a 1 written at every position of the probe sequence, in order. -/
theorem insertAux_fst_eq_fold (bitHash : ℕ → ℕ → ℕ) (numBits key : ℕ) :
    ∀ (d a : ℕ) (vec : List Bool) (c : ℕ),
      (insertAux bitHash numBits key d a vec c).1 =
        (insertProbes bitHash numBits key d a).foldl (fun v i => v.set i true) vec
  | 0, _, _, _ => rfl
  | d + 1, a, vec, c => by
    simp only [insertAux, insertProbes, List.foldl_cons]
    by_cases hgd : vec.getD (bitHash key a % numBits) false = false
    · rw [if_pos hgd]
      exact insertAux_fst_eq_fold bitHash numBits key d (bitHash key a)
        (vec.set (bitHash key a % numBits) true) (c + 1)
    · have hgt : vec.getD (bitHash key a % numBits) false = true := by
        cases h2 : vec.getD (bitHash key a % numBits) false
        · exact absurd h2 hgd
        · rfl
      rw [if_neg hgd, set_true_of_getD_true vec _ hgt]
      exact insertAux_fst_eq_fold bitHash numBits key d (bitHash key a) vec c

/-- The insert loop never changes the length of the bit array. -/
theorem insertAux_length (bitHash : ℕ → ℕ → ℕ) (numBits key : ℕ) :
    ∀ (d a : ℕ) (vec : List Bool) (c : ℕ),
      ((insertAux bitHash numBits key d a vec c).1).length = vec.length
  | 0, _, _, _ => rfl
  | d + 1, a, vec, c => by
    simp only [insertAux]
    by_cases hgd : vec.getD (bitHash key a % numBits) false = false
    · rw [if_pos hgd,
        insertAux_length bitHash numBits key d (bitHash key a)
          (vec.set (bitHash key a % numBits) true) (c + 1),
        List.length_set]
    · rw [if_neg hgd]
      exact insertAux_length bitHash numBits key d (bitHash key a) vec c

/-- The insert loop only ever writes 1 bits: a position holding a 1 on
entry still holds a 1 on exit. -/
theorem insertAux_getD_mono (bitHash : ℕ → ℕ → ℕ) (numBits key : ℕ) :
    ∀ (d a : ℕ) (vec : List Bool) (c i : ℕ),
      vec.getD i false = true →
      ((insertAux bitHash numBits key d a vec c).1).getD i false = true
  | 0, _, _, _, _, h => h
  | d + 1, a, vec, c, i, h => by
    simp only [insertAux]
    by_cases hgd : vec.getD (bitHash key a % numBits) false = false
    · rw [if_pos hgd]
      exact insertAux_getD_mono bitHash numBits key d (bitHash key a) _ (c + 1) i
        (getD_set_true_mono vec _ i h)
    · rw [if_neg hgd]
      exact insertAux_getD_mono bitHash numBits key d (bitHash key a) vec c i h

/-- After the insert loop has run over an array of the right length,
every position of its probe sequence holds a 1 bit. -/
theorem insertAux_getD_probes (bitHash : ℕ → ℕ → ℕ) (numBits key : ℕ) (hN : 1 ≤ numBits) :
    ∀ (d a : ℕ) (vec : List Bool) (c : ℕ), vec.length = numBits →
      ∀ i ∈ insertProbes bitHash numBits key d a,
        ((insertAux bitHash numBits key d a vec c).1).getD i false = true
  | 0, a, _, _, _, i, hi => absurd hi (by simp [insertProbes])
  | d + 1, a, vec, c, hlen, i, hi => by
    have hmem := hi
    simp only [insertProbes, List.mem_cons] at hmem
    simp only [insertAux]
    by_cases hgd : vec.getD (bitHash key a % numBits) false = false
    · rw [if_pos hgd]
      rcases hmem with hie | hitail
      · subst hie
        exact insertAux_getD_mono bitHash numBits key d (bitHash key a) _ (c + 1) _
          (getD_set_self vec _ (by rw [hlen]; exact Nat.mod_lt _ hN) true)
      · exact insertAux_getD_probes bitHash numBits key hN d (bitHash key a)
          (vec.set (bitHash key a % numBits) true) (c + 1)
          (by rw [List.length_set]; exact hlen) i hitail
    · have hgt : vec.getD (bitHash key a % numBits) false = true := by
        cases h2 : vec.getD (bitHash key a % numBits) false
        · exact absurd h2 hgd
        · rfl
      rw [if_neg hgd]
      rcases hmem with hie | hitail
      · subst hie
        exact insertAux_getD_mono bitHash numBits key d (bitHash key a) vec c _ hgt
      · exact insertAux_getD_probes bitHash numBits key hN d (bitHash key a) vec c hlen i hitail

/-- When every position of the probe sequence already holds a 1 bit,
the insert loop changes nothing: neither the array nor the count. -/
theorem insertAux_noop (bitHash : ℕ → ℕ → ℕ) (numBits key : ℕ) :
    ∀ (d a : ℕ) (vec : List Bool) (c : ℕ),
      (∀ i ∈ insertProbes bitHash numBits key d a, vec.getD i false = true) →
      insertAux bitHash numBits key d a vec c = (vec, c)
  | 0, _, _, _, _ => rfl
  | d + 1, a, vec, c, hall => by
    have hhead : vec.getD (bitHash key a % numBits) false = true :=
      hall _ (by simp [insertProbes])
    have hne : ¬ vec.getD (bitHash key a % numBits) false = false := by
      rw [hhead]
      exact fun hc => Bool.noConfusion hc
    simp only [insertAux]
    rw [if_neg hne]
    exact insertAux_noop bitHash numBits key d (bitHash key a) vec c
      (fun i hi => hall i (by simp only [insertProbes, List.mem_cons]; exact Or.inr hi))

/-- The count carried by the insert loop stays equal to the number of 1
bits of the carried array, given that it starts that way and the array
has the right length. -/
theorem insertAux_snd_count (bitHash : ℕ → ℕ → ℕ) (numBits key : ℕ) (hN : 1 ≤ numBits) :
    ∀ (d a : ℕ) (vec : List Bool) (c : ℕ), vec.length = numBits → c = vec.count true →
      (insertAux bitHash numBits key d a vec c).2 =
        ((insertAux bitHash numBits key d a vec c).1).count true
  | 0, _, _, _, _, hc => hc
  | d + 1, a, vec, c, hlen, hc => by
    simp only [insertAux]
    by_cases hgd : vec.getD (bitHash key a % numBits) false = false
    · rw [if_pos hgd]
      exact insertAux_snd_count bitHash numBits key hN d (bitHash key a) _ (c + 1)
        (by rw [List.length_set]; exact hlen)
        (by rw [count_set_true vec _ (by rw [hlen]; exact Nat.mod_lt _ hN) hgd, hc])
    · rw [if_neg hgd]
      exact insertAux_snd_count bitHash numBits key hN d (bitHash key a) vec c hlen hc

/-- insert leaves the numBits attribute alone. -/
theorem insert_numBits (bitHash : ℕ → ℕ → ℕ) (bf : BloomFilter) (key : ℕ) :
    (BloomFilter.insert bitHash bf key).numBits = bf.numBits := rfl

/-- insert leaves the numHashes attribute alone. -/
theorem insert_numHashes (bitHash : ℕ → ℕ → ℕ) (bf : BloomFilter) (key : ℕ) :
    (BloomFilter.insert bitHash bf key).numHashes = bf.numHashes := rfl

/-- A sequence of inserts leaves the numBits attribute alone. -/
theorem insertList_numBits (bitHash : ℕ → ℕ → ℕ) :
    ∀ (ks : List ℕ) (bf : BloomFilter), (insertList bitHash bf ks).numBits = bf.numBits
  | [], _ => rfl
  | k :: ks, bf => insertList_numBits bitHash ks (BloomFilter.insert bitHash bf k)

/-- A sequence of inserts leaves the numHashes attribute alone. -/
theorem insertList_numHashes (bitHash : ℕ → ℕ → ℕ) :
    ∀ (ks : List ℕ) (bf : BloomFilter), (insertList bitHash bf ks).numHashes = bf.numHashes
  | [], _ => rfl
  | k :: ks, bf => insertList_numHashes bitHash ks (BloomFilter.insert bitHash bf k)

/-- A sequence of inserts never changes the length of the bit array. -/
theorem insertList_length (bitHash : ℕ → ℕ → ℕ) :
    ∀ (ks : List ℕ) (bf : BloomFilter),
      (insertList bitHash bf ks).bitVector.length = bf.bitVector.length
  | [], _ => rfl
  | k :: ks, bf => by
    rw [show insertList bitHash bf (k :: ks) =
        insertList bitHash (BloomFilter.insert bitHash bf k) ks from rfl,
      insertList_length bitHash ks (BloomFilter.insert bitHash bf k)]
    exact insertAux_length bitHash bf.numBits k bf.numHashes 0 bf.bitVector bf.bitCount

/-- A 1 bit survives an insert of any key. -/
theorem insert_getD_mono (bitHash : ℕ → ℕ → ℕ) (bf : BloomFilter) (key i : ℕ)
    (h : bf.bitVector.getD i false = true) :
    (BloomFilter.insert bitHash bf key).bitVector.getD i false = true :=
  insertAux_getD_mono bitHash bf.numBits key bf.numHashes 0 bf.bitVector bf.bitCount i h

/-- A 1 bit survives any sequence of inserts. -/
theorem insertList_getD_mono (bitHash : ℕ → ℕ → ℕ) :
    ∀ (ks : List ℕ) (bf : BloomFilter) (i : ℕ), bf.bitVector.getD i false = true →
      (insertList bitHash bf ks).bitVector.getD i false = true
  | [], _, _, h => h
  | k :: ks, bf, i, h =>
    insertList_getD_mono bitHash ks (BloomFilter.insert bitHash bf k) i
      (insert_getD_mono bitHash bf k i h)

/-- After insert of a key into a well-formed filter, every position of
that key's probe sequence holds a 1 bit. -/
theorem insert_probes_set (bitHash : ℕ → ℕ → ℕ) (bf : BloomFilter) (key : ℕ)
    (hlen : bf.bitVector.length = bf.numBits) (hN : 1 ≤ bf.numBits) :
    ∀ i ∈ insertProbes bitHash bf.numBits key bf.numHashes 0,
      (BloomFilter.insert bitHash bf key).bitVector.getD i false = true :=
  insertAux_getD_probes bitHash bf.numBits key hN bf.numHashes 0 bf.bitVector bf.bitCount hlen

/-- The find method is the conjunction, over the insert probe sequence
of the key, of the probed bits. -/
theorem find_eq_all_probes (bitHash : ℕ → ℕ → ℕ) (bf : BloomFilter) (key : ℕ) :
    BloomFilter.find bitHash bf key =
      (insertProbes bitHash bf.numBits key bf.numHashes 0).all
        (fun i => bf.bitVector.getD i false) := by
  rw [show BloomFilter.find bitHash bf key =
      findAux bitHash bf.numBits key bf.numHashes 0 bf.bitVector from rfl,
    findAux_eq_all, findProbes_eq_insertProbes]

/-- One insert into a well-formed filter preserves the two data
invariants: the bit array keeps length numBits, and bitCount keeps
counting exactly the 1 bits of the array. -/
theorem insert_inv (bitHash : ℕ → ℕ → ℕ) (bf : BloomFilter) (key : ℕ)
    (hN : 1 ≤ bf.numBits) (hlen : bf.bitVector.length = bf.numBits)
    (hc : bf.bitCount = bf.bitVector.count true) :
    (BloomFilter.insert bitHash bf key).bitVector.length =
      (BloomFilter.insert bitHash bf key).numBits ∧
    (BloomFilter.insert bitHash bf key).bitCount =
      (BloomFilter.insert bitHash bf key).bitVector.count true := by
  constructor
  · show ((insertAux bitHash bf.numBits key bf.numHashes 0 bf.bitVector bf.bitCount).1).length =
      bf.numBits
    rw [insertAux_length]
    exact hlen
  · exact insertAux_snd_count bitHash bf.numBits key hN bf.numHashes 0 bf.bitVector bf.bitCount
      hlen hc

/-- Any sequence of inserts into a well-formed filter preserves the two
data invariants. -/
theorem insertList_inv (bitHash : ℕ → ℕ → ℕ) :
    ∀ (ks : List ℕ) (bf : BloomFilter), 1 ≤ bf.numBits →
      bf.bitVector.length = bf.numBits → bf.bitCount = bf.bitVector.count true →
      (insertList bitHash bf ks).bitVector.length = (insertList bitHash bf ks).numBits ∧
      (insertList bitHash bf ks).bitCount = (insertList bitHash bf ks).bitVector.count true
  | [], _, _, hlen, hc => ⟨hlen, hc⟩
  | k :: ks, bf, hN, hlen, hc => by
    have h1 := insert_inv bitHash bf k hN hlen hc
    exact insertList_inv bitHash ks (BloomFilter.insert bitHash bf k)
      (by rw [insert_numBits]; exact hN) h1.1 h1.2

/-- For design parameters in range (at least one key, at least one hash
probe, target rate strictly between 0 and 1) the real-valued sizing
formula exceeds the number of hash functions. -/
theorem bitsNeededR_gt (n d : ℕ) (P : ℝ) (hn : 1 ≤ n) (hd : 1 ≤ d)
    (hP0 : 0 < P) (hP1 : P < 1) : (d : ℝ) < bitsNeededR n d P := by
  have hd0 : (0 : ℝ) < (d : ℝ) := by exact_mod_cast Nat.lt_of_lt_of_le Nat.zero_lt_one hd
  have hn0 : (0 : ℝ) < (n : ℝ) := by exact_mod_cast Nat.lt_of_lt_of_le Nat.zero_lt_one hn
  have hinvd : 0 < (1 : ℝ) / (d : ℝ) := by positivity
  have hinvn : 0 < (1 : ℝ) / (n : ℝ) := by positivity
  have hPd0 : 0 < P ^ ((1 : ℝ) / (d : ℝ)) := Real.rpow_pos_of_pos hP0 _
  have hPd1 : P ^ ((1 : ℝ) / (d : ℝ)) < 1 := Real.rpow_lt_one hP0.le hP1 hinvd
  have hphi0 : 0 < 1 - P ^ ((1 : ℝ) / (d : ℝ)) := by linarith
  have hphi1 : 1 - P ^ ((1 : ℝ) / (d : ℝ)) < 1 := by linarith
  have h20 : 0 < (1 - P ^ ((1 : ℝ) / (d : ℝ))) ^ ((1 : ℝ) / (n : ℝ)) :=
    Real.rpow_pos_of_pos hphi0 _
  have h21 : (1 - P ^ ((1 : ℝ) / (d : ℝ))) ^ ((1 : ℝ) / (n : ℝ)) < 1 :=
    Real.rpow_lt_one hphi0.le hphi1 hinvn
  have hden0 : 0 < 1 - (1 - P ^ ((1 : ℝ) / (d : ℝ))) ^ ((1 : ℝ) / (n : ℝ)) := by linarith
  have hden1 : 1 - (1 - P ^ ((1 : ℝ) / (d : ℝ))) ^ ((1 : ℝ) / (n : ℝ)) < 1 := by linarith
  have hmul : (d : ℝ) * (1 - (1 - P ^ ((1 : ℝ) / (d : ℝ))) ^ ((1 : ℝ) / (n : ℝ))) < (d : ℝ) :=
    mul_lt_of_lt_one_right hd0 hden1
  have hX : (d : ℝ) <
      (d : ℝ) / (1 - (1 - P ^ ((1 : ℝ) / (d : ℝ))) ^ ((1 : ℝ) / (n : ℝ))) :=
    (lt_div_iff₀ hden0).mpr hmul
  exact hX

/-- For design parameters in range, the int() truncation in bitsNeeded
is a floor: the truncated value is positive. -/
theorem bitsNeeded_eq_floor (n d : ℕ) (P : ℝ) (hn : 1 ≤ n) (hd : 1 ≤ d)
    (hP0 : 0 < P) (hP1 : P < 1) : bitsNeeded n d P = ⌊bitsNeededR n d P⌋ := by
  have hgt := bitsNeededR_gt n d P hn hd hP0 hP1
  have hd0 : (0 : ℝ) ≤ (d : ℝ) := by positivity
  unfold bitsNeeded pyInt
  rw [if_pos (le_of_lt (lt_of_le_of_lt hd0 hgt))]

/-- For design parameters in range, bitsNeeded returns at least 1. -/
theorem bitsNeeded_ge_one (n d : ℕ) (P : ℝ) (hn : 1 ≤ n) (hd : 1 ≤ d)
    (hP0 : 0 < P) (hP1 : P < 1) : 1 ≤ bitsNeeded n d P := by
  rw [bitsNeeded_eq_floor n d P hn hd hP0 hP1]
  refine Int.le_floor.mpr ?_
  have hgt := bitsNeededR_gt n d P hn hd hP0 hP1
  have hd1 : (1 : ℝ) ≤ (d : ℝ) := by exact_mod_cast hd
  push_cast
  linarith

/-- For design parameters in range, the constructed filter has at least
one bit in its array. -/
theorem init_numBits_pos (n d : ℕ) (P : ℝ) (hn : 1 ≤ n) (hd : 1 ≤ d)
    (hP0 : 0 < P) (hP1 : P < 1) : 1 ≤ (BloomFilter.init n d P).numBits := by
  have h1 := bitsNeeded_ge_one n d P hn hd hP0 hP1
  show 1 ≤ (bitsNeeded n d P).toNat
  omega

/-- Evaluation of the sizing formula at numKeys = 1, numHashes = 2,
maxFalsePositive = 9: phi = 1 - 9^(1/2) = -2, then 2 / (1 - (-2)^(1/1))
= 2/3.  Every float operation the source performs on this input is
exact, so the real-number model coincides with the Python run. -/
theorem bitsNeededR_example : bitsNeededR 1 2 (9 : ℝ) = 2 / 3 := by
  show ((2 : ℕ) : ℝ) /
      (1 - (1 - (9 : ℝ) ^ ((1 : ℝ) / ((2 : ℕ) : ℝ))) ^ ((1 : ℝ) / ((1 : ℕ) : ℝ))) = 2 / 3
  have h2 : ((2 : ℕ) : ℝ) = 2 := by norm_num
  have h1 : ((1 : ℕ) : ℝ) = 1 := by norm_num
  rw [h2, h1]
  have h9 : (9 : ℝ) ^ ((1 : ℝ) / (2 : ℝ)) = 3 := by
    have h32 : (9 : ℝ) = (3 : ℝ) ^ (((2 : ℕ) : ℝ)) := by
      rw [Real.rpow_natCast]
      norm_num
    rw [h32, ← Real.rpow_mul (by norm_num : (0 : ℝ) ≤ 3)]
    have hmul : ((2 : ℕ) : ℝ) * ((1 : ℝ) / (2 : ℝ)) = 1 := by push_cast; ring
    rw [hmul, Real.rpow_one]
  rw [h9]
  have hone : (1 : ℝ) / (1 : ℝ) = 1 := by norm_num
  rw [hone, Real.rpow_one]
  norm_num

/-- On this same input the truncated bit count is 0: int(2/3) = 0. -/
theorem bitsNeeded_example : bitsNeeded 1 2 (9 : ℝ) = 0 := by
  unfold bitsNeeded pyInt
  rw [bitsNeededR_example, if_pos (by norm_num : (0 : ℝ) ≤ 2 / 3)]
  exact Int.floor_eq_zero_iff.mpr (by rw [Set.mem_Ico]; constructor <;> norm_num)

/-- C1: no false negatives.  For every hash collaborator and every
filter constructed with numKeys >= 1, numHashes >= 1 and
maxFalsePositive strictly between 0 and 1, once insert of a key k has
been called (after any earlier inserts pre), find of k returns true no
matter which other keys ks are inserted in between. -/
theorem C1_no_false_negatives (bitHash : ℕ → ℕ → ℕ) (n d : ℕ) (P : ℝ)
    (hn : 1 ≤ n) (hd : 1 ≤ d) (hP0 : 0 < P) (hP1 : P < 1)
    (pre : List ℕ) (k : ℕ) (ks : List ℕ) :
    BloomFilter.find bitHash
      (insertList bitHash
        (BloomFilter.insert bitHash (insertList bitHash (BloomFilter.init n d P) pre) k) ks)
      k = true := by
  have hlen0 : (BloomFilter.init n d P).bitVector.length = (BloomFilter.init n d P).numBits :=
    List.length_replicate _ _
  have hpos0 : 1 ≤ (BloomFilter.init n d P).numBits := init_numBits_pos n d P hn hd hP0 hP1
  have h1bits : (insertList bitHash (BloomFilter.init n d P) pre).numBits =
      (BloomFilter.init n d P).numBits := insertList_numBits bitHash pre _
  have h1len : (insertList bitHash (BloomFilter.init n d P) pre).bitVector.length =
      (insertList bitHash (BloomFilter.init n d P) pre).numBits := by
    rw [insertList_length bitHash pre _, hlen0, h1bits]
  have h1pos : 1 ≤ (insertList bitHash (BloomFilter.init n d P) pre).numBits := by
    rw [h1bits]
    exact hpos0
  have hall2 := insert_probes_set bitHash (insertList bitHash (BloomFilter.init n d P) pre) k
    h1len h1pos
  have hall3 : ∀ i ∈ insertProbes bitHash
      (insertList bitHash (BloomFilter.init n d P) pre).numBits k
      (insertList bitHash (BloomFilter.init n d P) pre).numHashes 0,
      (insertList bitHash
        (BloomFilter.insert bitHash (insertList bitHash (BloomFilter.init n d P) pre) k)
        ks).bitVector.getD i false = true :=
    fun i hi => insertList_getD_mono bitHash ks _ i (hall2 i hi)
  have h3bits : (insertList bitHash
      (BloomFilter.insert bitHash (insertList bitHash (BloomFilter.init n d P) pre) k)
      ks).numBits = (insertList bitHash (BloomFilter.init n d P) pre).numBits := by
    rw [insertList_numBits bitHash ks _, insert_numBits]
  have h3hash : (insertList bitHash
      (BloomFilter.insert bitHash (insertList bitHash (BloomFilter.init n d P) pre) k)
      ks).numHashes = (insertList bitHash (BloomFilter.init n d P) pre).numHashes := by
    rw [insertList_numHashes bitHash ks _, insert_numHashes]
  rw [find_eq_all_probes, h3bits, h3hash]
  exact List.all_eq_true.mpr hall3

/-- Witness for C1: with a concrete hash collaborator and the filter
constructed with numKeys 1, numHashes 1, maxFalsePositive 1/2, the key
5 is found after being inserted between inserts of 3 and of 9. -/
theorem C1_no_false_negatives_witness :
    ((1 : ℕ) ≤ 1 ∧ (0 : ℝ) < 1 / 2 ∧ (1 / 2 : ℝ) < 1) ∧
    BloomFilter.find demoHash
      (insertList demoHash
        (BloomFilter.insert demoHash
          (insertList demoHash (BloomFilter.init 1 1 (1 / 2 : ℝ)) [3]) 5) [9]) 5 = true :=
  ⟨⟨le_refl 1, by norm_num, by norm_num⟩,
    C1_no_false_negatives demoHash 1 1 (1 / 2 : ℝ) (le_refl 1) (le_refl 1)
      (by norm_num) (by norm_num) [3] 5 [9]⟩

/-- C2: evaluated on a filter in which no bit has ever been set (here
the freshly constructed filter of the demonstration driver), the
falsePositiveRate method divides numHashes by bitCount = 0: the Python
run raises an uncaught ZeroDivisionError, modelled as the result none.
No sentinel value and no declared EstimatorUndefined failure exist in
the source. -/
theorem C2_fpr_div_by_zero :
    (BloomFilter.init 100000 4 (1 / 20 : ℝ)).falsePositiveRate = none := rfl

/-- C3 counterexample: with numKeys = 1, numHashes = 2 and
maxFalsePositive = 9 (outside the open interval (0,1)), the sizing
formula yields the unusable bit-array length 0, yet construction does
not fail: a filter object is produced, with an empty bit array. -/
theorem C3_counterexample :
    (BloomFilter.init 1 2 (9 : ℝ)).numBits = 0 ∧
    (BloomFilter.init 1 2 (9 : ℝ)).bitVector = [] ∧
    (BloomFilter.init 1 2 (9 : ℝ)).bitCount = 0 := by
  have h := bitsNeeded_example
  refine ⟨?_, ?_, rfl⟩
  · show (bitsNeeded 1 2 (9 : ℝ)).toNat = 0
    rw [h]
    rfl
  · show List.replicate (bitsNeeded 1 2 (9 : ℝ)).toNat false = []
    rw [h]
    rfl

/-- C3 amended: at numKeys = 1, numHashes = 2, maxFalsePositive = 9 —
a triple with maxFalsePositive outside (0,1) on which the sizing
formula yields the unusable length 0 — the constructor does not fail
with InvalidParameters, nor at all: every float operation the source
performs on this input is exact and raises nothing, and a fully
populated filter object is produced, storing the three parameters as
given, an all-zero bit array of the computed (empty) size, and a zero
bit count. -/
theorem C3_amended_no_failure :
    (BloomFilter.init 1 2 (9 : ℝ)).numKeys = 1 ∧
    (BloomFilter.init 1 2 (9 : ℝ)).numHashes = 2 ∧
    (BloomFilter.init 1 2 (9 : ℝ)).maxFalsePositive = 9 ∧
    (BloomFilter.init 1 2 (9 : ℝ)).bitVector =
      List.replicate (BloomFilter.init 1 2 (9 : ℝ)).numBits false ∧
    (BloomFilter.init 1 2 (9 : ℝ)).bitCount = 0 :=
  ⟨rfl, rfl, rfl, rfl, rfl⟩

/-- C4: after any sequence of inserts into a constructed filter with at
least one bit (the reads find, numBitsSet and falsePositiveRate do not
touch the state, see C6, so insert sequences exhaust the reachable
states), bitCount equals the number of 1 bits of the bit array, is at
most numBits (and at least 0, being a natural number), and numBitsSet
returns exactly the cached count. -/
theorem C4_occupancy_invariant (bitHash : ℕ → ℕ → ℕ) (n d N : ℕ) (P : ℝ)
    (hN : 1 ≤ N) (ks : List ℕ) :
    (insertList bitHash (mkFilter n d N P) ks).bitCount =
      (insertList bitHash (mkFilter n d N P) ks).bitVector.count true ∧
    (insertList bitHash (mkFilter n d N P) ks).bitCount ≤
      (insertList bitHash (mkFilter n d N P) ks).numBits ∧
    BloomFilter.numBitsSet (insertList bitHash (mkFilter n d N P) ks) =
      (insertList bitHash (mkFilter n d N P) ks).bitCount := by
  have h := insertList_inv bitHash ks (mkFilter n d N P) hN (List.length_replicate N false)
    (count_replicate_false N).symm
  refine ⟨h.2, ?_, rfl⟩
  rw [h.2, ← h.1]
  exact List.count_le_length _ _

/-- Witness for C4 at a concrete hash, filter and insert sequence. -/
theorem C4_occupancy_invariant_witness :
    (1 : ℕ) ≤ 5 ∧
    ((insertList demoHash (mkFilter 3 2 5 (1 / 2 : ℝ)) [4, 4, 9]).bitCount =
        (insertList demoHash (mkFilter 3 2 5 (1 / 2 : ℝ)) [4, 4, 9]).bitVector.count true ∧
      (insertList demoHash (mkFilter 3 2 5 (1 / 2 : ℝ)) [4, 4, 9]).bitCount ≤
        (insertList demoHash (mkFilter 3 2 5 (1 / 2 : ℝ)) [4, 4, 9]).numBits ∧
      BloomFilter.numBitsSet (insertList demoHash (mkFilter 3 2 5 (1 / 2 : ℝ)) [4, 4, 9]) =
        (insertList demoHash (mkFilter 3 2 5 (1 / 2 : ℝ)) [4, 4, 9]).bitCount) :=
  ⟨by norm_num, C4_occupancy_invariant demoHash 3 2 5 (1 / 2 : ℝ) (by norm_num) [4, 4, 9]⟩

/-- C5: for every hash collaborator, filter and key, the probe
sequence read off from the find loop is element-for-element the probe
sequence read off from the insert loop; it has exactly numHashes
elements, both loops starting the chaining seed at 0, taking
h = bitHash key a, probing h % numBits and chaining a := h.  Moreover
find is exactly the conjunction of the probed bits over that sequence
and insert writes a 1 exactly at the positions of that sequence, in
order. -/
theorem C5_probe_sequence_identical (bitHash : ℕ → ℕ → ℕ) (bf : BloomFilter) (key : ℕ) :
    findProbes bitHash bf.numBits key bf.numHashes 0 =
      insertProbes bitHash bf.numBits key bf.numHashes 0 ∧
    (insertProbes bitHash bf.numBits key bf.numHashes 0).length = bf.numHashes ∧
    BloomFilter.find bitHash bf key =
      (findProbes bitHash bf.numBits key bf.numHashes 0).all
        (fun i => bf.bitVector.getD i false) ∧
    (BloomFilter.insert bitHash bf key).bitVector =
      (insertProbes bitHash bf.numBits key bf.numHashes 0).foldl
        (fun v i => v.set i true) bf.bitVector := by
  refine ⟨findProbes_eq_insertProbes bitHash bf.numBits key bf.numHashes 0,
    insertProbes_length bitHash bf.numBits key bf.numHashes 0, ?_, ?_⟩
  · rw [find_eq_all_probes, findProbes_eq_insertProbes]
  · exact insertAux_fst_eq_fold bitHash bf.numBits key bf.numHashes 0 bf.bitVector bf.bitCount

/-- C6: find, numBitsSet and falsePositiveRate are pure reads — their
bodies assign no attribute, so in the stateful reading each returns the
filter unchanged in every field — and insert mutates nothing beyond the
bit array and the bit count: numKeys, numHashes, numBits and
maxFalsePositive survive it unchanged. -/
theorem C6_pure_reads (bitHash : ℕ → ℕ → ℕ) (bf : BloomFilter) (key : ℕ) :
    (findS bitHash bf key).2 = bf ∧
    (numBitsSetS bf).2 = bf ∧
    (falsePositiveRateS bf).2 = bf ∧
    (BloomFilter.insert bitHash bf key).numKeys = bf.numKeys ∧
    (BloomFilter.insert bitHash bf key).numHashes = bf.numHashes ∧
    (BloomFilter.insert bitHash bf key).numBits = bf.numBits ∧
    (BloomFilter.insert bitHash bf key).maxFalsePositive = bf.maxFalsePositive :=
  ⟨rfl, rfl, rfl, rfl, rfl, rfl, rfl⟩

/-- C7: for design parameters in range, the bit count chosen at
construction is exactly the deterministic value prescribed by the spec
formula — floor of d / (1 - phi^(1/n)) with phi = 1 - P^(1/d): the
int() truncation of the source agrees with the floor because the value
is positive, and numBits stores exactly that value.  Determinism holds
because bitsNeeded is a function of the three parameters alone. -/
theorem C7_sizing_deterministic (n d : ℕ) (P : ℝ) (hn : 1 ≤ n) (hd : 1 ≤ d)
    (hP0 : 0 < P) (hP1 : P < 1) :
    bitsNeeded n d P = specNumBits n d P ∧ 0 ≤ specNumBits n d P ∧
    (BloomFilter.init n d P).numBits = (specNumBits n d P).toNat := by
  have heq : bitsNeeded n d P = ⌊bitsNeededR n d P⌋ := bitsNeeded_eq_floor n d P hn hd hP0 hP1
  have hspec : specNumBits n d P = ⌊bitsNeededR n d P⌋ := rfl
  refine ⟨heq.trans hspec.symm, ?_, ?_⟩
  · rw [hspec]
    refine Int.floor_nonneg.mpr ?_
    have hgt := bitsNeededR_gt n d P hn hd hP0 hP1
    have hd0 : (0 : ℝ) ≤ (d : ℝ) := by positivity
    linarith
  · show (bitsNeeded n d P).toNat = (specNumBits n d P).toNat
    rw [heq.trans hspec.symm]

/-- Witness for C7 at numKeys 1, numHashes 1, maxFalsePositive 1/2. -/
theorem C7_sizing_deterministic_witness :
    ((1 : ℕ) ≤ 1 ∧ (0 : ℝ) < 1 / 2 ∧ (1 / 2 : ℝ) < 1) ∧
    bitsNeeded 1 1 (1 / 2 : ℝ) = specNumBits 1 1 (1 / 2 : ℝ) :=
  ⟨⟨le_refl 1, by norm_num, by norm_num⟩,
    (C7_sizing_deterministic 1 1 (1 / 2 : ℝ) (le_refl 1) (le_refl 1)
      (by norm_num) (by norm_num)).1⟩

/-- C8: on every filter state with a positive bit count, the
falsePositiveRate method returns exactly the spec value
(1 - phi)^numHashes with phi = (1 - numHashes/bitsSetCount)^numKeys,
and its result depends only on the cached numKeys, numHashes and
bitCount: any filter agreeing on those three numbers — whatever its bit
array or numBits — gets the same answer, so no scan of the array is
involved. -/
theorem C8_fpr_from_cached_count (bf : BloomFilter) (hc : 0 < bf.bitCount) :
    BloomFilter.falsePositiveRate bf =
      some (specFalsePositiveRate bf.numKeys bf.numHashes bf.bitCount) ∧
    ∀ bf2 : BloomFilter, bf2.numKeys = bf.numKeys → bf2.numHashes = bf.numHashes →
      bf2.bitCount = bf.bitCount →
      BloomFilter.falsePositiveRate bf2 = BloomFilter.falsePositiveRate bf := by
  have hne : ¬ bf.bitCount = 0 := by omega
  constructor
  · unfold BloomFilter.falsePositiveRate specFalsePositiveRate
    rw [if_neg hne]
  · intro bf2 h1 h2 h3
    unfold BloomFilter.falsePositiveRate
    rw [h1, h2, h3]

/-- Witness for C8 on a one-bit filter with one bit set. -/
theorem C8_fpr_from_cached_count_witness :
    0 < (BloomFilter.mk 1 1 (1 / 2 : ℝ) 1 [true] 1).bitCount ∧
    BloomFilter.falsePositiveRate (BloomFilter.mk 1 1 (1 / 2 : ℝ) 1 [true] 1) =
      some (specFalsePositiveRate 1 1 1) :=
  ⟨Nat.one_pos,
    (C8_fpr_from_cached_count (BloomFilter.mk 1 1 (1 / 2 : ℝ) 1 [true] 1) Nat.one_pos).1⟩

/-- C9: inserting the same key twice leaves numBitsSet unchanged by the
second call: the second insert finds every one of the probed bits of the
key already at 1.  The filter is assumed well-formed — its array has
length numBits ≥ 1 — which holds in every state the Python program can
reach, since with numBits = 0 insert raises ZeroDivisionError. -/
theorem C9_insert_idempotent (bitHash : ℕ → ℕ → ℕ) (bf : BloomFilter) (k : ℕ)
    (hN : 1 ≤ bf.numBits) (hlen : bf.bitVector.length = bf.numBits) :
    BloomFilter.numBitsSet
        (BloomFilter.insert bitHash (BloomFilter.insert bitHash bf k) k) =
      BloomFilter.numBitsSet (BloomFilter.insert bitHash bf k) := by
  have hall := insert_probes_set bitHash bf k hlen hN
  show (insertAux bitHash bf.numBits k bf.numHashes 0
      (BloomFilter.insert bitHash bf k).bitVector
      (BloomFilter.insert bitHash bf k).bitCount).2 =
    (BloomFilter.insert bitHash bf k).bitCount
  rw [insertAux_noop bitHash bf.numBits k bf.numHashes 0
    (BloomFilter.insert bitHash bf k).bitVector
    (BloomFilter.insert bitHash bf k).bitCount hall]

/-- Witness for C9 at a concrete hash, filter and key. -/
theorem C9_insert_idempotent_witness :
    (1 ≤ (mkFilter 3 2 5 (1 / 2 : ℝ)).numBits ∧
      (mkFilter 3 2 5 (1 / 2 : ℝ)).bitVector.length = (mkFilter 3 2 5 (1 / 2 : ℝ)).numBits) ∧
    BloomFilter.numBitsSet
        (BloomFilter.insert demoHash
          (BloomFilter.insert demoHash (mkFilter 3 2 5 (1 / 2 : ℝ)) 7) 7) =
      BloomFilter.numBitsSet (BloomFilter.insert demoHash (mkFilter 3 2 5 (1 / 2 : ℝ)) 7) :=
  ⟨⟨by norm_num [mkFilter], List.length_replicate 5 false⟩,
    C9_insert_idempotent demoHash (mkFilter 3 2 5 (1 / 2 : ℝ)) 7 (by norm_num [mkFilter])
      (List.length_replicate 5 false)⟩

/-- C10: on a freshly constructed filter with numHashes ≥ 1 and
numBits ≥ 1, before any insert, find returns false for every key: its
very first probe reads a 0 bit of the all-zero array and the loop
returns immediately. -/
theorem C10_fresh_find_false (bitHash : ℕ → ℕ → ℕ) (n d N : ℕ) (P : ℝ)
    (hd : 1 ≤ d) (_hN : 1 ≤ N) (k : ℕ) :
    BloomFilter.find bitHash (mkFilter n d N P) k = false := by
  obtain ⟨e, rfl⟩ : ∃ e, d = e + 1 := ⟨d - 1, by omega⟩
  rw [find_eq_all_probes]
  show (insertProbes bitHash N k (e + 1) 0).all
      (fun i => (List.replicate N false).getD i false) = false
  simp only [insertProbes, List.all_cons]
  rw [getD_replicate_false]
  simp

/-- Witness for C10 at a concrete hash, filter and key. -/
theorem C10_fresh_find_false_witness :
    ((1 : ℕ) ≤ 2 ∧ (1 : ℕ) ≤ 5) ∧
    BloomFilter.find demoHash (mkFilter 3 2 5 (1 / 2 : ℝ)) 7 = false :=
  ⟨⟨by norm_num, by norm_num⟩,
    C10_fresh_find_false demoHash 3 2 5 (1 / 2 : ℝ) (by norm_num) (by norm_num) 7⟩

end BloomFilterHW
